import Mathlib

/-
Verification development for the OCR pipeline repository.

Shallow embedding notes.
Reply texts are modelled as `List Char`.  Python's `re.sub` passes, `str.strip`,
`json.loads` (object construction via successive dict assignment, i.e.
last-write-wins), pydantic's `Label.model_validate_json`, the JPEG quality
loop of `image_to_base64` and `validate_image_path` are translated from
`src/gemma_ocr.py` and `src/gemma_structured_example.py`.

Scanning and parsing functions carry an explicit fuel argument so that they
are structurally recursive and kernel-evaluable; every top-level wrapper
supplies fuel that is an upper bound on the number of recursive steps
(each step consumes at least one input character), so the fuel never runs
out and the functions compute exactly the source semantics.

The resize computation of `image_to_base64` is performed by the source in
IEEE-754 double precision; it is modelled exactly, by exact rational
arithmetic on numerator-denominator pairs of naturals with a
round-to-nearest-ties-to-even function (`rnd64`): CPython evaluates
`1024 / long_side` as the correctly rounded binary64 quotient (int/int true
division is correctly rounded), the products `dimension * scale_factor`
convert the int operand exactly (below 2^53) and round the product, and
`int(...)` truncates toward zero.  The model keeps the exponent unbounded,
which coincides with binary64 throughout the normal range; the resize
theorems therefore carry the (far beyond any real image) dimension bound
2^50.  The size comparison of the quality loop divides byte counts by
2^20, which is exact in binary64, so that budget is carried in bytes as
naturals.  JSON numbers are kept as their lexemes (`JVal.numLit`); no claim
compares numeric values.

Python whitespace classes (`\s` in `re`, `str.strip`, `str.rstrip`) are
modelled by their ASCII part, which coincides with the source behaviour on
the ASCII reply texts considered here; the JSON parser uses the four JSON
whitespace characters exactly as `json.loads` does.
-/

/-- Literal left brace character, written numerically. -/
def lbrace : Char := Char.ofNat 123

/-- Literal right brace character, written numerically. -/
def rbrace : Char := Char.ofNat 125

/-- Control character U+0001: the character actually produced by the Python
replacement strings `'"\1":'` and `':"\1"'` in `gemma_ocr.py` lines 159-160
(a non-raw Python string turns `\1` into the octal escape `chr(1)`). -/
def esc1 : Char := Char.ofNat 1

/-- JSON whitespace, as skipped by `json.loads`. -/
def isJsonWs (c : Char) : Bool := c = ' ' || c = '\t' || c = '\n' || c = '\r'

/-- Python whitespace (`\s` in `re`, `str.strip`), ASCII part. -/
def isPyWs (c : Char) : Bool :=
  c = ' ' || c = '\t' || c = '\n' || c = '\r' || c = Char.ofNat 11 || c = Char.ofNat 12

/-- Model of Python `str.strip()`. -/
def pyStrip (cs : List Char) : List Char :=
  ((cs.dropWhile isPyWs).reverse.dropWhile isPyWs).reverse

/-- Suffix of `cs` starting at the first occurrence of `t`; `none` when `t`
does not occur.  Helper for the `re.search` span computation. -/
def suffixFromFirst (t : Char) : List Char → Option (List Char)
  | [] => none
  | c :: cs => if c = t then some (c :: cs) else suffixFromFirst t cs

/-- Longest prefix of `cs` ending at the last occurrence of `t`. -/
def prefixToLast (t : Char) (cs : List Char) : Option (List Char) :=
  match suffixFromFirst t cs.reverse with
  | none => none
  | some r => some r.reverse

/-- Model of `re.search(r"\{.*\}", content, re.DOTALL)` in `perform_ocr`
(line 144-145 of `gemma_ocr.py`): the leftmost match of the greedy pattern is
the span from the first left brace to the last right brace occurring after
it; `none` when no such span exists. -/
def extractSpan (cs : List Char) : Option (List Char) :=
  match suffixFromFirst lbrace cs with
  | none => none
  | some t =>
    match t with
    | [] => none
    | c :: rest =>
      match prefixToLast rbrace rest with
      | none => none
      | some p => some (c :: p)

/-- JSON values as produced by `json.loads`.  Numbers are kept as their
source lexemes (`numLit`) to avoid float semantics; objects carry the member
list already deduplicated last-write-wins by `buildDict` as Python's dict
construction does. -/
inductive JVal where
  | str (s : String)
  | numLit (lit : String)
  | boolVal (b : Bool)
  | nullVal
  | arr (elems : List JVal)
  | obj (members : List (String × JVal))

/-- Dict assignment `d[k] = v`: overwrite in place when the key is present
(keeping its original position, as Python dicts do), append otherwise. -/
def insertLW : List (String × JVal) → String → JVal → List (String × JVal)
  | [], k, v => [(k, v)]
  | p :: ps, k, v => if p.1 = k then (k, v) :: ps else p :: insertLW ps k v

/-- Build a Python dict from syntactic members by successive assignment:
duplicate keys are resolved last-write-wins. -/
def buildDict (ps : List (String × JVal)) : List (String × JVal) :=
  ps.foldl (fun m p => insertLW m p.1 p.2) []

/-- Dict lookup on the association-list representation. -/
def lookupStr (k : String) : List (String × JVal) → Option JVal
  | [] => none
  | p :: ps => if p.1 = k then some p.2 else lookupStr k ps

/-- The value of the last member with key `k`, if any: the reference
last-write-wins semantics against which `buildDict` is checked. -/
def lastAssoc : List (String × JVal) → String → Option JVal
  | [], _ => none
  | p :: ps, k =>
    match lastAssoc ps k with
    | some v => some v
    | none => if p.1 = k then some p.2 else none

/-- Decode a single-character JSON string escape. -/
def escChar (c : Char) : Option Char :=
  if c = '"' then some '"'
  else if c = '\\' then some '\\'
  else if c = '/' then some '/'
  else if c = 'b' then some (Char.ofNat 8)
  else if c = 'f' then some (Char.ofNat 12)
  else if c = 'n' then some '\n'
  else if c = 'r' then some '\r'
  else if c = 't' then some '\t'
  else none

/-- Value of a hexadecimal digit. -/
def hexDigitVal (c : Char) : Option Nat :=
  if '0' ≤ c ∧ c ≤ '9' then some (c.toNat - 48)
  else if 'a' ≤ c ∧ c ≤ 'f' then some (c.toNat - 87)
  else if 'A' ≤ c ∧ c ≤ 'F' then some (c.toNat - 55)
  else none

/-- Body of a JSON string after the opening quote, as scanned by
`json.loads` in strict mode: escapes are decoded, unescaped control
characters below U+0020 are rejected.  Returns the decoded content and the
remainder after the closing quote. -/
def parseStrBody : Nat → List Char → Option (List Char × List Char)
  | 0, _ => none
  | _ + 1, [] => none
  | f + 1, c :: cs =>
    if c = '"' then some ([], cs)
    else if c = '\\' then
      match cs with
      | [] => none
      | e :: cs2 =>
        if e = 'u' then
          match cs2 with
          | h1 :: h2 :: h3 :: h4 :: cs3 =>
            match hexDigitVal h1, hexDigitVal h2, hexDigitVal h3, hexDigitVal h4 with
            | some a, some b, some c2, some d =>
              match parseStrBody f cs3 with
              | some (s, r) => some (Char.ofNat (4096 * a + 256 * b + 16 * c2 + d) :: s, r)
              | none => none
            | _, _, _, _ => none
          | _ => none
        else
          match escChar e with
          | some d =>
            match parseStrBody f cs2 with
            | some (s, r) => some (d :: s, r)
            | none => none
          | none => none
    else if c.toNat < 32 then none
    else
      match parseStrBody f cs with
      | some (s, r) => some (c :: s, r)
      | none => none

/-- A JSON number lexeme per the scanner's regular expression
`(-?(?:0|[1-9]\d*))(\.\d+)?([eE][-+]?\d+)?`: the longest match is taken and
the remainder is left for the surrounding parser. -/
def parseNumLit (cs : List Char) : Option (List Char × List Char) :=
  let sgn : List Char := if cs.head? = some '-' then ['-'] else []
  let cs1 := if cs.head? = some '-' then cs.drop 1 else cs
  let ipart := if cs1.head? = some '0' then ['0'] else cs1.takeWhile Char.isDigit
  let cs2 := cs1.drop ipart.length
  if ipart.isEmpty then none
  else
    let fds := if cs2.head? = some '.' then (cs2.drop 1).takeWhile Char.isDigit else []
    let fpart : List Char := if fds.isEmpty then [] else '.' :: fds
    let cs3 := if fds.isEmpty then cs2 else cs2.drop (1 + fds.length)
    let epart_rest : List Char × List Char :=
      match cs3 with
      | e :: rest =>
        if e = 'e' ∨ e = 'E' then
          match rest with
          | s :: r2 =>
            if s = '+' ∨ s = '-' then
              let ds := r2.takeWhile Char.isDigit
              if ds.isEmpty then ([], cs3) else (e :: s :: ds, r2.drop ds.length)
            else
              let ds := rest.takeWhile Char.isDigit
              if ds.isEmpty then ([], cs3) else (e :: ds, rest.drop ds.length)
          | [] => ([], cs3)
        else ([], cs3)
      | [] => ([], cs3)
    some (sgn ++ ipart ++ fpart ++ epart_rest.1, epart_rest.2)

/-- Consume an expected literal tail (e.g. `rue` after `t`). -/
def dropLit : List Char → List Char → Option (List Char)
  | [], cs => some cs
  | _ :: _, [] => none
  | l :: ls, c :: cs2 => if c = l then dropLit ls cs2 else none

/-- Intermediate parse results: a value, object members, or array items. -/
inductive PRes where
  | rv (v : JVal)
  | rms (ms : List (String × JVal))
  | rvs (vs : List JVal)

/-- Recursive core of `json.loads`.  `mode` 0 parses a value, 1 an object
body after the opening brace (empty object allowed), 4 a nonempty member
list, 2 an array body after the opening bracket, 5 a nonempty item list.
Trailing commas are rejected exactly as in Python (after a comma, mode 4
requires a quoted key and mode 5 a value). -/
def parseF : Nat → Nat → List Char → Option (PRes × List Char)
  | 0, _, _ => none
  | f + 1, mode, cs =>
    if mode = 0 then
      match cs.dropWhile isJsonWs with
      | [] => none
      | c :: rest =>
        if c = '"' then
          match parseStrBody rest.length rest with
          | some (s, r) => some (.rv (.str (String.mk s)), r)
          | none => none
        else if c = lbrace then
          match parseF f 1 rest with
          | some (.rms ms, r) => some (.rv (.obj (buildDict ms)), r)
          | _ => none
        else if c = '[' then
          match parseF f 2 rest with
          | some (.rvs vs, r) => some (.rv (.arr vs), r)
          | _ => none
        else if c = 't' then
          match dropLit ("rue".data) rest with
          | some r => some (.rv (.boolVal true), r)
          | none => none
        else if c = 'f' then
          match dropLit ("alse".data) rest with
          | some r => some (.rv (.boolVal false), r)
          | none => none
        else if c = 'n' then
          match dropLit ("ull".data) rest with
          | some r => some (.rv .nullVal, r)
          | none => none
        else if c = 'N' then
          match dropLit ("aN".data) rest with
          | some r => some (.rv (.numLit "NaN"), r)
          | none => none
        else if c = 'I' then
          match dropLit ("nfinity".data) rest with
          | some r => some (.rv (.numLit "Infinity"), r)
          | none => none
        else if c = '-' ∧ rest.head? = some 'I' then
          match dropLit ("Infinity".data) rest with
          | some r => some (.rv (.numLit "-Infinity"), r)
          | none => none
        else
          match parseNumLit (c :: rest) with
          | some (l, r) => some (.rv (.numLit (String.mk l)), r)
          | none => none
    else if mode = 1 then
      match cs.dropWhile isJsonWs with
      | [] => none
      | c :: rest => if c = rbrace then some (.rms [], rest) else parseF f 4 (c :: rest)
    else if mode = 4 then
      match cs.dropWhile isJsonWs with
      | [] => none
      | c :: rest =>
        if c = '"' then
          match parseStrBody rest.length rest with
          | some (k, r1) =>
            match r1.dropWhile isJsonWs with
            | [] => none
            | c2 :: r2 =>
              if c2 = ':' then
                match parseF f 0 r2 with
                | some (.rv v, r3) =>
                  match r3.dropWhile isJsonWs with
                  | [] => none
                  | c3 :: r4 =>
                    if c3 = rbrace then some (.rms [(String.mk k, v)], r4)
                    else if c3 = ',' then
                      match parseF f 4 r4 with
                      | some (.rms ms, r5) => some (.rms ((String.mk k, v) :: ms), r5)
                      | _ => none
                    else none
                | _ => none
              else none
          | none => none
        else none
    else if mode = 2 then
      match cs.dropWhile isJsonWs with
      | [] => none
      | c :: rest => if c = ']' then some (.rvs [], rest) else parseF f 5 (c :: rest)
    else if mode = 5 then
      match parseF f 0 cs with
      | some (.rv v, r1) =>
        match r1.dropWhile isJsonWs with
        | [] => none
        | c2 :: r2 =>
          if c2 = ']' then some (.rvs [v], r2)
          else if c2 = ',' then
            match parseF f 5 r2 with
            | some (.rvs vs, r3) => some (.rvs (v :: vs), r3)
            | _ => none
          else none
      | _ => none
    else none

/-- Model of `json.loads`: parse one value and require only whitespace to
remain (otherwise Python raises `Extra data`). -/
def json_loads (cs : List Char) : Option JVal :=
  match parseF (3 * cs.length + 3) 0 cs with
  | some (.rv v, rest) => if (rest.dropWhile isJsonWs).isEmpty then some v else none
  | _ => none

/-- Greedy `\s*` then a required literal character: returns the remainder
after the literal, or `none`.  (Backtracking cannot help: fewer whitespace
characters leave a whitespace character where the literal is required.) -/
def wsThen (t : Char) (cs : List Char) : Option (List Char) :=
  match cs.dropWhile isPyWs with
  | [] => none
  | c :: rest => if c = t then some rest else none

/-- Pass 1, `re.sub(r',\s*}', '}', s)` (line 155): every comma followed by
optional whitespace and a right brace collapses to the brace. -/
def sub1 : Nat → List Char → List Char
  | 0, cs => cs
  | _ + 1, [] => []
  | f + 1, c :: cs =>
    if c = ',' then
      match wsThen rbrace cs with
      | some rest => rbrace :: sub1 f rest
      | none => c :: sub1 f cs
    else c :: sub1 f cs

/-- Negative lookbehind `(?<![\{\s,])`: blocked when the previous character
of the original string is a left brace, whitespace or comma; at the start of
the string the assertion holds. -/
def blocked2 (prev : Option Char) : Bool :=
  match prev with
  | none => false
  | some p => p = lbrace || isPyWs p || p = ','

/-- Pass 2, `re.sub(r'(?<![\{\s,])\s*"', ' "', s)` (line 157): a quote (with
optional preceding whitespace) not preceded by brace, whitespace or comma
gets a single space inserted before it.  `prev` tracks the character of the
original string just before the scan position, as `re` lookbehind does. -/
def sub2 : Nat → Option Char → List Char → List Char
  | 0, _, cs => cs
  | _ + 1, _, [] => []
  | f + 1, prev, c :: cs =>
    if blocked2 prev then c :: sub2 f (some c) cs
    else
      match wsThen '"' (c :: cs) with
      | some rest => ' ' :: '"' :: sub2 f (some '"') rest
      | none => c :: sub2 f (some c) cs

/-- Pass 3, `re.sub(r'"\s*([^"]+)\s*":', '"\1":', s)` (line 159).  The
replacement is a non-raw Python string, so `\1` is `chr(1)` (`esc1`), not a
backreference: a quoted key followed by a colon is replaced by a key whose
content is the single control character U+0001. -/
def sub3 : Nat → List Char → List Char
  | 0, cs => cs
  | _ + 1, [] => []
  | f + 1, c :: cs =>
    if c = '"' then
      match cs.dropWhile (fun x => x ≠ '"') with
      | q :: d :: rest2 =>
        if 1 ≤ (cs.takeWhile (fun x => x ≠ '"')).length ∧ q = '"' ∧ d = ':' then
          '"' :: esc1 :: '"' :: ':' :: sub3 f rest2
        else c :: sub3 f cs
      | _ => c :: sub3 f cs
    else c :: sub3 f cs

/-- Pass 4, `re.sub(r':\s*"([^"]+)\s*"', ':"\1"', s)` (line 160), with the
same non-raw `\1` slip: a colon followed by a quoted nonempty value is
replaced by `:"` U+0001 `"`. -/
def sub4 : Nat → List Char → List Char
  | 0, cs => cs
  | _ + 1, [] => []
  | f + 1, c :: cs =>
    if c = ':' then
      match wsThen '"' cs with
      | some afterQ =>
        match afterQ.dropWhile (fun x => x ≠ '"') with
        | _ :: rest2 =>
          if 1 ≤ (afterQ.takeWhile (fun x => x ≠ '"')).length then
            ':' :: '"' :: esc1 :: '"' :: sub4 f rest2
          else c :: sub4 f cs
        | [] => c :: sub4 f cs
      | none => c :: sub4 f cs
    else c :: sub4 f cs

/-- Match attempt for pass 5 at the current position:
`\s*"([^"]+)\."\s*}` — optional whitespace, a quoted content of length at
least two ending in a period, optional whitespace, right brace.  Returns the
remainder after the brace. -/
def m5 (cs : List Char) : Option (List Char) :=
  match wsThen '"' cs with
  | some afterQ =>
    match afterQ.dropWhile (fun x => x ≠ '"') with
    | _ :: rest2 =>
      let content := afterQ.takeWhile (fun x => x ≠ '"')
      if 2 ≤ content.length ∧ content.getLast? = some '.' then wsThen rbrace rest2
      else none
    | [] => none
  | none => none

/-- Pass 5, `re.sub(r'\s*"([^"]+)\."\s*}', '', s)` (line 162): a quoted
trailing clause ending in a period together with the following right brace
is deleted. -/
def sub5 : Nat → List Char → List Char
  | 0, cs => cs
  | _ + 1, [] => []
  | f + 1, c :: cs =>
    match m5 (c :: cs) with
    | some rest => sub5 f rest
    | none => c :: sub5 f cs

/-- Character class `[^"\s]` of pass 6. -/
def isClass6 (c : Char) : Bool := c ≠ '"' && !(isPyWs c)

/-- Tail `\.\s*\}` of pass 6: a period, optional whitespace, right brace. -/
def tailDotWsRb (cs : List Char) : Option (List Char) :=
  match cs with
  | c :: rest => if c = '.' then wsThen rbrace rest else none
  | [] => none

/-- Greedy matcher for `([^"\s]+\.)\s*}` with backtracking: prefer extending
the `[^"\s]+` group, on failure stop the group (once nonempty) and try the
`\.\s*\}` tail at the current position. -/
def m6core : Nat → Bool → List Char → Option (List Char)
  | 0, _, _ => none
  | _ + 1, _, [] => none
  | f + 1, consumed, c :: rest =>
    if isClass6 c then
      match m6core f true rest with
      | some r => some r
      | none => if consumed then tailDotWsRb (c :: rest) else none
    else if consumed then tailDotWsRb (c :: rest) else none

/-- Match attempt for pass 6 at the current position:
`\s*([^"\s]+\.)\s*}` — optional whitespace, then an unquoted token ending in
a period, optional whitespace, right brace. -/
def m6 (cs : List Char) : Option (List Char) :=
  let r := cs.dropWhile isPyWs
  m6core r.length false r

/-- Pass 6, `re.sub(r'\s*([^"\s]+\.)\s*}', '', s)` (line 163): an unquoted
trailing token ending in a period together with the following right brace is
deleted. -/
def sub6 : Nat → List Char → List Char
  | 0, cs => cs
  | _ + 1, [] => []
  | f + 1, c :: cs =>
    match m6 (c :: cs) with
    | some rest => sub6 f rest
    | none => c :: sub6 f cs

/-- Line 164, `cleaned = cleaned.rstrip() + '}'`: strip trailing whitespace
and unconditionally append one right brace. -/
def rstripApp (cs : List Char) : List Char :=
  (cs.reverse.dropWhile isPyWs).reverse ++ [rbrace]

/-- The full repair sequence of `perform_ocr` (lines 153-164), in source
order: trailing-comma strip, separator insertion, the two quoted-content
rewrites, the two trailing-prose strips, then rstrip plus brace append. -/
def cleanJson (cs : List Char) : List Char :=
  let c1 := sub1 cs.length cs
  let c2 := sub2 c1.length none c1
  let c3 := sub3 c2.length c2
  let c4 := sub4 c3.length c3
  let c5 := sub5 c4.length c4
  let c6 := sub6 c5.length c5
  rstripApp c6

/-- Errors of the free-form interpretation, named as the spec names them:
`ValueError("No JSON object found in response")` (line 177) and the
re-raised `json.JSONDecodeError` after the failed repair parse (line 175). -/
inductive OcrError where
  | noStructureFound
  | unrecoverableParse

/-- Free-form response interpretation of `perform_ocr` (lines 140-177):
strip the reply, extract the first-brace-to-last-brace span, try a direct
parse, otherwise parse the repaired text, otherwise fail. -/
def perform_ocr (content : List Char) : Except OcrError JVal :=
  match extractSpan (pyStrip content) with
  | none => .error .noStructureFound
  | some j =>
    match json_loads j with
    | some v => .ok v
    | none =>
      match json_loads (cleanJson j) with
      | some v => .ok v
      | none => .error .unrecoverableParse

/-- The pydantic record of `gemma_structured_example.py` lines 35-51: four
mandatory string fields. -/
structure Label where
  Name : String
  Model : String
  Buy_Date : String
  Serial_Number : String

/-- A required string field of the schema: present in the member list and of
string shape. -/
def getStrField (ms : List (String × JVal)) (k : String) : Option String :=
  match lookupStr k ms with
  | some (.str s) => some s
  | _ => none

/-- Model of `Label.model_validate_json` (line 194): the reply must be a
syntactically valid JSON object and all four fields must be present as
strings (extra members are ignored, as pydantic does by default); `none`
models the raised `ValidationError` (the spec's `SchemaValidationError`). -/
def label_model_validate_json (content : List Char) : Option Label :=
  match json_loads content with
  | some (.obj ms) =>
    match getStrField ms "Name", getStrField ms "Model",
          getStrField ms "Buy_Date", getStrField ms "Serial_Number" with
    | some n, some mo, some b, some s => some ⟨n, mo, b, s⟩
    | _, _, _, _ => none
  | _ => none

/-- Schema-constrained interpretation of `perform_structured_ocr`
(lines 189-197): strip the reply, validate directly, no repair pass. -/
def perform_structured_ocr (content : List Char) : Option Label :=
  label_model_validate_json (pyStrip content)

/-- Floor of the base-2 logarithm of the positive rational n / d, by fueled
normalization into the interval from 1 to 2.  The fuel bounds the exponent
magnitude; 4400 covers far more than the binary64 exponent range, and the
correctness lemma below is proved for every value the fuel covers. -/
def flog2 : Nat → Nat → Nat → Int
  | 0, _, _ => 0
  | f + 1, n, d =>
    if n < d then flog2 f (2 * n) d - 1
    else if 2 * d ≤ n then flog2 f n (2 * d) + 1
    else 0

/-- The rational (n / d) * 2^k as a numerator-denominator pair. -/
def mulPow2 (n d : Nat) (k : Int) : Nat × Nat :=
  if 0 ≤ k then (n * 2 ^ k.toNat, d) else (n, d * 2 ^ (-k).toNat)

/-- Round the rational N / D to the nearest integer, ties to even — the
rounding of IEEE-754 round-to-nearest-even applied to a scaled
significand. -/
def roundHalfEven (N D : Nat) : Nat :=
  if 2 * (N % D) < D then N / D
  else if D < 2 * (N % D) then N / D + 1
  else if (N / D) % 2 = 0 then N / D else N / D + 1

/-- Round the positive rational n / d to the nearest binary64 value (53-bit
significand, round half to even), returned as an exact
numerator-denominator pair.  The exponent is unbounded, which agrees with
IEEE binary64 throughout the normal range — in particular on every value
arising in the resize computation for realistic image dimensions. -/
def rnd64 (n d : Nat) : Nat × Nat :=
  if n = 0 ∨ d = 0 then (0, 1)
  else
    mulPow2
      (roundHalfEven (mulPow2 n d (52 - flog2 4400 n d)).1
        (mulPow2 n d (52 - flog2 4400 n d)).2)
      1 (flog2 4400 n d - 52)

/-- The resize computation of `image_to_base64` (lines 54-57) in the double
arithmetic the source performs: `scale_factor = 1024 / long_side` is the
correctly rounded binary64 quotient (CPython int/int true division is
correctly rounded), each new dimension is `int(old * scale_factor)` where
the product is rounded to binary64 (the int operand converts exactly below
2^53) and `int` truncates toward zero.  Validated against CPython floats on
an exhaustive range of small dimensions and random dimensions up to
10^9. -/
def resize_dims (w h : Nat) : Nat × Nat :=
  ((rnd64 (w * (rnd64 1024 (max w h)).1) (rnd64 1024 (max w h)).2).1 /
     (rnd64 (w * (rnd64 1024 (max w h)).1) (rnd64 1024 (max w h)).2).2,
   (rnd64 (h * (rnd64 1024 (max w h)).1) (rnd64 1024 (max w h)).2).1 /
     (rnd64 (h * (rnd64 1024 (max w h)).1) (rnd64 1024 (max w h)).2).2)

/-- Rational value of a numerator-denominator pair (proof-level only). -/
def qval (p : Nat × Nat) : ℚ := (p.1 : ℚ) / (p.2 : ℚ)

/-- The JPEG quality loop of `image_to_base64` (lines 62-73).  `enc q` is
the encoded size in bytes of the resized image at quality `q`; `budget` is
`max_size_mb` in bytes.  The loop accepts when the size fits the budget or
the quality has reached 30 or below, else decrements the quality by 10.  The
fuel argument bounds the iteration count; started at the initial quality it
never runs out, since the quality strictly decreases. -/
def qualityLoop (enc : Nat → Nat) (budget : Nat) : Nat → Nat → Nat × Nat
  | 0, q => (enc q, q)
  | f + 1, q =>
    if enc q ≤ budget ∨ q ≤ 30 then (enc q, q)
    else qualityLoop enc budget f (q - 10)

/-- Final (size, quality) pair returned by `image_to_base64`: the loop
started at quality 95. -/
def image_to_base64_size (enc : Nat → Nat) (budget : Nat) : Nat × Nat :=
  qualityLoop enc budget 95 95

/-- Errors of `validate_image_path`: `FileNotFoundError` (line 34) and
`ValueError` for an unrecognized extension (line 38). -/
inductive PathError where
  | fileNotFound
  | invalidFormat

/-- The recognized extension set of line 36. -/
def validExtensions : List String := [".jpg", ".jpeg", ".png", ".gif", ".bmp"]

/-- Model of `Path(p).suffix.lower()`: the extension of the final path
component (from the last dot, which must be neither first nor last in the
component), lower-cased. -/
def pathSuffixLower (p : List Char) : List Char :=
  let name := (p.reverse.takeWhile (fun c => c ≠ '/')).reverse
  match name.reverse.findIdx? (fun c => c = '.') with
  | none => []
  | some rj =>
    let i := name.length - 1 - rj
    if 0 < i ∧ i < name.length - 1 then (name.drop i).map Char.toLower else []

/-- Model of `validate_image_path` (identical in both source files, lines
31-38 and 56-71): the existence check runs first and raises
`FileNotFoundError`; only then is the extension checked.  The file system is
abstracted as the predicate `fsExists`. -/
def validate_image_path (fsExists : List Char → Bool) (image_path : List Char) :
    Except PathError Unit :=
  if fsExists image_path then
    if validExtensions.contains (String.mk (pathSuffixLower image_path)) then .ok ()
    else .error .invalidFormat
  else .error .fileNotFound

/-- Dict assignment then lookup: the assigned key reads back the new value,
every other key is unchanged. -/
theorem lookupStr_insertLW (k2 k : String) (v : JVal) :
    ∀ m, lookupStr k2 (insertLW m k v) = if k2 = k then some v else lookupStr k2 m := by
  intro m
  induction m with
  | nil =>
    by_cases hk : k2 = k
    · subst hk; simp [insertLW, lookupStr]
    · simp [insertLW, lookupStr, hk, Ne.symm hk]
  | cons p ps ih =>
    obtain ⟨a, b⟩ := p
    by_cases hp : a = k
    · subst hp
      by_cases hk : k2 = a
      · subst hk; simp [insertLW, lookupStr]
      · simp [insertLW, lookupStr, hk, Ne.symm hk]
    · by_cases hk : k2 = k
      · subst hk
        simp [insertLW, lookupStr, hp, Ne.symm hp, ih]
      · simp [insertLW, lookupStr, hp, hk, ih]

/-- Folding dict assignments over a member list realizes the value of the
last member with the looked-up key, falling back to the accumulator. -/
theorem lookupStr_foldl_insertLW (k : String) :
    ∀ (ps m : List (String × JVal)),
      lookupStr k (ps.foldl (fun m p => insertLW m p.1 p.2) m) =
        match lastAssoc ps k with
        | some v => some v
        | none => lookupStr k m := by
  intro ps
  induction ps with
  | nil => intro m; rfl
  | cons p ps ih =>
    intro m
    rw [List.foldl_cons, ih]
    cases hl : lastAssoc ps k with
    | some v => simp [lastAssoc, hl]
    | none =>
      simp only [lastAssoc, hl]
      rw [lookupStr_insertLW]
      by_cases hk : k = p.1
      · subst hk
        simp
      · have hk2 : ¬ p.1 = k := fun hh => hk hh.symm
        simp [hk, hk2]

/-- Lookup in a dict built from syntactic members is last-write-wins. -/
theorem lookupStr_buildDict (ps : List (String × JVal)) (k : String) :
    lookupStr k (buildDict ps) = lastAssoc ps k := by
  rw [buildDict, lookupStr_foldl_insertLW]
  cases hl : lastAssoc ps k <;> rfl

/-- The span found by `suffixFromFirst` is a suffix of the input. -/
theorem suffixFromFirst_suffix (t : Char) :
    ∀ (cs s : List Char), suffixFromFirst t cs = some s → s <:+ cs := by
  intro cs
  induction cs with
  | nil => intro s h; exact absurd h (by simp [suffixFromFirst])
  | cons c cs ih =>
    intro s h
    by_cases hc : c = t
    · rw [suffixFromFirst, if_pos hc] at h
      injection h with h2
      rw [← h2]
    · rw [suffixFromFirst, if_neg hc] at h
      exact (ih s h).trans (List.suffix_cons c cs)

/-- The span found by `suffixFromFirst` starts with the sought character. -/
theorem suffixFromFirst_head (t : Char) :
    ∀ (cs s : List Char), suffixFromFirst t cs = some s → s.head? = some t := by
  intro cs
  induction cs with
  | nil => intro s h; exact absurd h (by simp [suffixFromFirst])
  | cons c cs ih =>
    intro s h
    by_cases hc : c = t
    · rw [suffixFromFirst, if_pos hc] at h
      injection h with h2
      rw [← h2]
      simp [hc]
    · rw [suffixFromFirst, if_neg hc] at h
      exact ih s h

/-- If extraction succeeds, the text contained a left brace followed
somewhere later by a right brace. -/
theorem extractSpan_sublist (cs s : List Char) (h : extractSpan cs = some s) :
    List.Sublist [lbrace, rbrace] cs := by
  cases hf : suffixFromFirst lbrace cs with
  | none => simp [extractSpan, hf] at h
  | some t =>
    cases t with
    | nil => simp [extractSpan, hf] at h
    | cons c rest =>
      simp only [extractSpan, hf] at h
      cases hp : prefixToLast rbrace rest with
      | none => rw [hp] at h; exact absurd h (by simp)
      | some p =>
        have hc : c = lbrace := by
          have := suffixFromFirst_head lbrace cs (c :: rest) hf
          simpa using this
        have hsuf := suffixFromFirst_suffix lbrace cs (c :: rest) hf
        cases hr : suffixFromFirst rbrace rest.reverse with
        | none => simp [prefixToLast, hr] at hp
        | some r =>
          have hmem : rbrace ∈ rest := by
            have hrh := suffixFromFirst_head rbrace rest.reverse r hr
            have hrs := suffixFromFirst_suffix rbrace rest.reverse r hr
            have hmr : rbrace ∈ r := by
              cases r with
              | nil => exact absurd hrh (by simp)
              | cons a r2 =>
                have ha : a = rbrace := by simpa using hrh
                rw [ha]
                exact List.mem_cons_self _ _
            have hrev : rbrace ∈ rest.reverse := hrs.sublist.subset hmr
            simpa using hrev
          have hsub : List.Sublist [lbrace, rbrace] (c :: rest) := by
            rw [hc]
            exact (List.singleton_sublist.mpr hmem).cons₂ lbrace
          exact hsub.trans hsuf.sublist

/-- Stripping outer whitespace yields a sublist of the reply text. -/
theorem pyStrip_sublist (cs : List Char) : List.Sublist (pyStrip cs) cs := by
  unfold pyStrip
  have h1 : List.Sublist (cs.dropWhile isPyWs) cs := List.dropWhile_sublist _
  have h2 : List.Sublist ((cs.dropWhile isPyWs).reverse.dropWhile isPyWs)
      (cs.dropWhile isPyWs).reverse := List.dropWhile_sublist _
  have h3 := h2.reverse
  rw [List.reverse_reverse] at h3
  exact h3.trans h1

/-- Powers of two are positive. -/
theorem two_zpow_pos (k : Int) : (0:ℚ) < (2:ℚ) ^ k := zpow_pos (by norm_num) k

/-- Successor law for integer powers of two. -/
theorem two_zpow_succ (k : Int) : (2:ℚ) ^ (k + 1) = 2 * (2:ℚ) ^ k := by
  rw [zpow_add_one₀ (by norm_num : (2:ℚ) ≠ 0)]
  ring

/-- Correctness of `flog2` for every positive rational within the range the
fuel covers: the result e satisfies 2^e le n/d < 2^(e+1). -/
theorem flog2_bounds :
    ∀ (f n d : Nat), 0 < d →
      (2:ℚ) ^ (-(f:Int)) ≤ (n:ℚ) / d →
      (n:ℚ) / d < (2:ℚ) ^ ((f:Int) + 1) →
      (2:ℚ) ^ flog2 f n d ≤ (n:ℚ) / d ∧ (n:ℚ) / d < (2:ℚ) ^ (flog2 f n d + 1) := by
  intro f
  induction f with
  | zero =>
    intro n d hd h1 h2
    have e0 : flog2 0 n d = 0 := rfl
    rw [e0]
    constructor
    · simpa using h1
    · simpa using h2
  | succ f ih =>
    intro n d hd h1 h2
    have hd0 : (0:ℚ) < d := by exact_mod_cast hd
    have hcast : (((f+1 : Nat)) : Int) = (f : Int) + 1 := by push_cast; ring
    by_cases hlt : n < d
    · have hql : (n:ℚ)/d < 1 := (div_lt_one hd0).mpr (by exact_mod_cast hlt)
      have heq : flog2 (f+1) n d = flog2 f (2*n) d - 1 := by rw [flog2, if_pos hlt]
      have hv : ((2*n : Nat) : ℚ) / d = 2 * ((n:ℚ)/d) := by push_cast; ring
      have hr1 : (2:ℚ) ^ (-(f:Int)) ≤ ((2*n : Nat):ℚ) / d := by
        rw [hv]
        have he : (-(f:Int)) = (-(((f+1 : Nat)):Int)) + 1 := by push_cast; ring
        rw [he, two_zpow_succ]
        linarith
      have hr2 : ((2*n : Nat):ℚ) / d < (2:ℚ) ^ ((f:Int) + 1) := by
        rw [hv]
        have hmono : (2:ℚ) ^ (1:Int) ≤ (2:ℚ) ^ ((f:Int) + 1) :=
          zpow_le_zpow_right₀ (by norm_num) (by omega)
        have h21 : (2:ℚ) ^ (1:Int) = 2 := by norm_num
        linarith
      have hrec := ih (2*n) d hd hr1 hr2
      obtain ⟨ha, hb⟩ := hrec
      rw [hv] at ha hb
      rw [heq]
      constructor
      · have hs : (2:ℚ) ^ (flog2 f (2*n) d) = 2 * (2:ℚ) ^ (flog2 f (2*n) d - 1) := by
          rw [← two_zpow_succ]
          congr 1
          ring
        rw [hs] at ha
        linarith
      · have hE : flog2 f (2*n) d - 1 + 1 = flog2 f (2*n) d := by ring
        rw [hE]
        rw [two_zpow_succ] at hb
        linarith
    · by_cases hge : 2*d ≤ n
      · have heq : flog2 (f+1) n d = flog2 f n (2*d) + 1 := by
          rw [flog2, if_neg hlt, if_pos hge]
        have hd2 : 0 < 2*d := by omega
        have hd2q : (0:ℚ) < ((2*d : Nat):ℚ) := by exact_mod_cast hd2
        have hq2 : 2 ≤ (n:ℚ)/d := by
          rw [le_div_iff₀ hd0]
          exact_mod_cast hge
        have hv : (n:ℚ) / ((2*d : Nat):ℚ) = ((n:ℚ)/d) / 2 := by
          push_cast
          rw [div_div]
          ring
        have hr1 : (2:ℚ) ^ (-(f:Int)) ≤ (n:ℚ) / ((2*d : Nat):ℚ) := by
          rw [hv]
          have hmono : (2:ℚ) ^ (-(f:Int)) ≤ (2:ℚ) ^ (0:Int) :=
            zpow_le_zpow_right₀ (by norm_num) (by omega)
          have h20 : (2:ℚ) ^ (0:Int) = 1 := by norm_num
          linarith
        have hr2 : (n:ℚ) / ((2*d : Nat):ℚ) < (2:ℚ) ^ ((f:Int) + 1) := by
          rw [hv]
          rw [hcast] at h2
          have hs : (2:ℚ) ^ ((f:Int) + 1 + 1) = 2 * (2:ℚ) ^ ((f:Int) + 1) := two_zpow_succ _
          rw [hs] at h2
          linarith
        have hrec := ih n (2*d) hd2 hr1 hr2
        obtain ⟨ha, hb⟩ := hrec
        rw [hv] at ha hb
        rw [heq]
        constructor
        · rw [two_zpow_succ]
          linarith
        · rw [two_zpow_succ, two_zpow_succ]
          rw [two_zpow_succ] at hb
          linarith
      · have heq : flog2 (f+1) n d = 0 := by rw [flog2, if_neg hlt, if_neg hge]
        rw [heq]
        have hq1 : 1 ≤ (n:ℚ)/d := by
          rw [le_div_iff₀ hd0, one_mul]
          exact_mod_cast not_lt.mp hlt
        have hq2 : (n:ℚ)/d < 2 := by
          rw [div_lt_iff₀ hd0]
          exact_mod_cast (by omega : n < 2*d)
        constructor
        · simpa using hq1
        · simpa using hq2


/-- `mulPow2` keeps the denominator positive. -/
theorem mulPow2_den_pos (n d : Nat) (hd : 0 < d) (k : Int) : 0 < (mulPow2 n d k).2 := by
  unfold mulPow2
  split
  · exact hd
  · exact Nat.mul_pos hd (Nat.pow_pos (by norm_num))

/-- Rational value computed by `mulPow2`. -/
theorem mulPow2_val (n d : Nat) (hd : 0 < d) (k : Int) :
    qval (mulPow2 n d k) = ((n:ℚ)/d) * (2:ℚ) ^ k := by
  have hdq : ((d:ℚ)) ≠ 0 := by positivity
  unfold mulPow2 qval
  split
  · rename_i hk
    have hzp : (2:ℚ) ^ k = (2:ℚ) ^ (k.toNat : Nat) := by
      rw [← zpow_natCast, Int.toNat_of_nonneg hk]
    rw [hzp]
    push_cast
    ring
  · rename_i hk
    have hk2 : (0:Int) ≤ -k := by omega
    have hzp : (2:ℚ) ^ k = ((2:ℚ) ^ ((-k).toNat : Nat))⁻¹ := by
      rw [← zpow_natCast, Int.toNat_of_nonneg hk2, zpow_neg, inv_inv]
    rw [hzp]
    push_cast
    field_simp

/-- `roundHalfEven` is within one half of its argument. -/
theorem roundHalfEven_bounds (N D : Nat) (hD : 0 < D) :
    (N:ℚ)/D - 1/2 ≤ (roundHalfEven N D : ℚ) ∧
    (roundHalfEven N D : ℚ) ≤ (N:ℚ)/D + 1/2 := by
  have hDq : (0:ℚ) < (D:ℚ) := by exact_mod_cast hD
  have hrel : ((D:ℚ)) * ((N / D : Nat):ℚ) + ((N % D : Nat):ℚ) = (N:ℚ) := by
    exact_mod_cast congrArg (Nat.cast : Nat → ℚ) (Nat.div_add_mod N D)
  have hx : (N:ℚ)/D = ((N / D : Nat):ℚ) + ((N % D : Nat):ℚ) / D := by
    field_simp
    linarith
  have hfr0 : (0:ℚ) ≤ ((N % D : Nat):ℚ) / D := by positivity
  have hfr1 : ((N % D : Nat):ℚ) / D < 1 := by
    rw [div_lt_one hDq]
    exact_mod_cast Nat.mod_lt _ hD
  unfold roundHalfEven
  by_cases hA : 2 * (N % D) < D
  · rw [if_pos hA]
    have hfr : ((N % D : Nat):ℚ) / D < 1/2 := by
      rw [div_lt_iff₀ hDq]
      have h2 : 2 * ((N % D : Nat):ℚ) < (D:ℚ) := by exact_mod_cast hA
      linarith
    constructor <;> linarith
  · rw [if_neg hA]
    have hfr : 1/2 ≤ ((N % D : Nat):ℚ) / D := by
      rw [le_div_iff₀ hDq]
      have h2 : (D:ℚ) ≤ 2 * ((N % D : Nat):ℚ) := by exact_mod_cast not_lt.mp hA
      linarith
    by_cases hB : D < 2 * (N % D)
    · rw [if_pos hB]
      push_cast
      constructor <;> linarith
    · rw [if_neg hB]
      by_cases hE : (N / D) % 2 = 0
      · rw [if_pos hE]
        have hfr2 : ((N % D : Nat):ℚ) / D ≤ 1/2 := by
          rw [div_le_iff₀ hDq]
          have h2 : 2 * ((N % D : Nat):ℚ) ≤ (D:ℚ) := by exact_mod_cast not_lt.mp hB
          linarith
        constructor <;> linarith
      · rw [if_neg hE]
        have hfr2 : ((N % D : Nat):ℚ) / D ≤ 1/2 := by
          rw [div_le_iff₀ hDq]
          have h2 : 2 * ((N % D : Nat):ℚ) ≤ (D:ℚ) := by exact_mod_cast not_lt.mp hB
          linarith
        push_cast
        constructor <;> linarith

/-- `rnd64` keeps the denominator positive. -/
theorem rnd64_den_pos (n d : Nat) : 0 < (rnd64 n d).2 := by
  unfold rnd64
  split
  · norm_num
  · exact mulPow2_den_pos _ 1 (by norm_num) _

/-- Relative error of binary64 rounding: within the covered range the
rounded value lies within a factor 1 plus-or-minus 2^-53 of the exact
rational. -/
theorem rnd64_bounds (n d : Nat) (hn : 0 < n) (hd : 0 < d)
    (h1 : (2:ℚ) ^ (-(4400:Int)) ≤ (n:ℚ)/d)
    (h2 : (n:ℚ)/d < (2:ℚ) ^ ((4400:Int) + 1)) :
    ((n:ℚ)/d) * (1 - (2:ℚ) ^ (-(53:Int))) ≤ qval (rnd64 n d) ∧
    qval (rnd64 n d) ≤ ((n:ℚ)/d) * (1 + (2:ℚ) ^ (-(53:Int))) := by
  have hcast : ((4400 : Nat) : Int) = (4400 : Int) := by norm_num
  have hb := flog2_bounds 4400 n d hd (by rw [hcast]; exact h1) (by rw [hcast]; exact h2)
  have hguard : ¬(n = 0 ∨ d = 0) := by omega
  rw [rnd64, if_neg hguard]
  set e := flog2 4400 n d with he
  set S := mulPow2 n d (52 - e) with hS
  set q : ℚ := (n:ℚ)/d with hq
  have hS2 : 0 < S.2 := mulPow2_den_pos n d hd _
  have hSval : qval S = q * (2:ℚ) ^ (52 - e) := mulPow2_val n d hd _
  have hq0 : 0 < q := lt_of_lt_of_le (two_zpow_pos _) h1
  set M := roundHalfEven S.1 S.2 with hM
  have hRB := roundHalfEven_bounds S.1 S.2 hS2
  have hqvS : (S.1:ℚ)/S.2 = qval S := rfl
  rw [hqvS, hSval] at hRB
  have hres : qval (mulPow2 M 1 (e - 52)) = (M:ℚ) * (2:ℚ) ^ (e - 52) := by
    rw [mulPow2_val M 1 (by norm_num) _]
    norm_num
  rw [hres]
  have hp1 : (0:ℚ) < (2:ℚ) ^ (e - 52) := two_zpow_pos _
  have hcollapse : (2:ℚ) ^ (52 - e) * (2:ℚ) ^ (e - 52) = 1 := by
    rw [← zpow_add₀ (by norm_num : (2:ℚ) ≠ 0)]
    norm_num
  have hhalf : (1/2 : ℚ) * (2:ℚ) ^ (e - 52) = (2:ℚ) ^ (e - 53) := by
    have hsucc : (2:ℚ) ^ (e - 52) = 2 * (2:ℚ) ^ (e - 53) := by
      rw [← two_zpow_succ]
      congr 1
      ring
    rw [hsucc]
    ring
  have hsmall : (2:ℚ) ^ (e - 53) ≤ q * (2:ℚ) ^ (-(53:Int)) := by
    have hsplit : (2:ℚ) ^ (e - 53) = (2:ℚ) ^ e * (2:ℚ) ^ (-(53:Int)) := by
      rw [← zpow_add₀ (by norm_num : (2:ℚ) ≠ 0)]
      congr 1
    rw [hsplit]
    exact mul_le_mul_of_nonneg_right hb.1 (two_zpow_pos _).le
  constructor
  · have hlow := mul_le_mul_of_nonneg_right hRB.1 hp1.le
    have hexp : (q * (2:ℚ) ^ (52 - e) - 1/2) * (2:ℚ) ^ (e - 52)
        = q - (2:ℚ) ^ (e - 53) := by
      rw [sub_mul, mul_assoc, hcollapse, mul_one, hhalf]
    rw [hexp] at hlow
    nlinarith [hsmall, hlow]
  · have hhigh := mul_le_mul_of_nonneg_right hRB.2 hp1.le
    have hexp : (q * (2:ℚ) ^ (52 - e) + 1/2) * (2:ℚ) ^ (e - 52)
        = q + (2:ℚ) ^ (e - 53) := by
      rw [add_mul, mul_assoc, hcollapse, mul_one, hhalf]
    rw [hexp] at hhigh
    nlinarith [hsmall, hhigh]

/-- Numeric value of 2^-53. -/
theorem two_zpow_neg53 : (2:ℚ) ^ (-(53:Int)) = 1/9007199254740992 := by
  rw [show (-(53:Int)) = -((53:Nat):Int) from by norm_num, zpow_neg, zpow_natCast]
  norm_num

/-- Numeric value of 2^-40. -/
theorem two_zpow_neg40 : (2:ℚ) ^ (-(40:Int)) = 1/1099511627776 := by
  rw [show (-(40:Int)) = -((40:Nat):Int) from by norm_num, zpow_neg, zpow_natCast]
  norm_num

/-- Numeric value of 2^-41. -/
theorem two_zpow_neg41 : (2:ℚ) ^ (-(41:Int)) = 1/2199023255552 := by
  rw [show (-(41:Int)) = -((41:Nat):Int) from by norm_num, zpow_neg, zpow_natCast]
  norm_num

/-- Numeric value of 2^10. -/
theorem two_zpow_ten : (2:ℚ) ^ ((10:Int)) = 1024 := by
  rw [show ((10:Int)) = ((10:Nat):Int) from by norm_num, zpow_natCast]
  norm_num

/-- Numeric value of 2^11. -/
theorem two_zpow_eleven : (2:ℚ) ^ ((11:Int)) = 2048 := by
  rw [show ((11:Int)) = ((11:Nat):Int) from by norm_num, zpow_natCast]
  norm_num

/-- Range lower bound for the scale factor 1024 / L under the dimension
bound. -/
theorem scale_lb (L : Nat) (hL : 0 < L) (hLB : L ≤ 2 ^ 50) :
    (2:ℚ) ^ (-(4400:Int)) ≤ (1024:ℚ) / (L:ℚ) := by
  have hLq : (0:ℚ) < (L:ℚ) := by exact_mod_cast hL
  have hLB2 : L ≤ 1125899906842624 := by
    have h : (2:Nat) ^ 50 = 1125899906842624 := by norm_num
    omega
  have hLBq : (L:ℚ) ≤ 1125899906842624 := by exact_mod_cast hLB2
  calc (2:ℚ) ^ (-(4400:Int)) ≤ (2:ℚ) ^ (-(40:Int)) :=
        zpow_le_zpow_right₀ (by norm_num) (by norm_num)
    _ = 1/1099511627776 := two_zpow_neg40
    _ ≤ (1024:ℚ) / (L:ℚ) := by
        rw [div_le_div_iff₀ (by norm_num) hLq]
        linarith

/-- Range upper bound for the scale factor 1024 / L. -/
theorem scale_ub (L : Nat) (hL : 0 < L) :
    (1024:ℚ) / (L:ℚ) < (2:ℚ) ^ ((4400:Int) + 1) := by
  have hLq : (1:ℚ) ≤ (L:ℚ) := by exact_mod_cast hL
  have h1 : (1024:ℚ) / (L:ℚ) ≤ 1024 := div_le_self (by norm_num) hLq
  have h2 : (1024:ℚ) < (2:ℚ) ^ ((4400:Int) + 1) := by
    calc (1024:ℚ) = (2:ℚ) ^ ((10:Int)) := two_zpow_ten.symm
      _ < (2:ℚ) ^ ((4400:Int) + 1) := zpow_lt_zpow_right₀ (by norm_num) (by norm_num)
  linarith

/-- Any dimension at most the longer side resizes, through both binary64
roundings, to at most 1024 pixels. -/
theorem dim_le (dd L : Nat) (hdd : 0 < dd) (hdL : dd ≤ L) (hLB : L ≤ 2 ^ 50) :
    (rnd64 (dd * (rnd64 1024 L).1) (rnd64 1024 L).2).1 /
      (rnd64 (dd * (rnd64 1024 L).1) (rnd64 1024 L).2).2 ≤ 1024 := by
  have hL : 0 < L := lt_of_lt_of_le hdd hdL
  have hLq : (0:ℚ) < (L:ℚ) := by exact_mod_cast hL
  set s := rnd64 1024 L with hs
  have hs2 : 0 < s.2 := rnd64_den_pos 1024 L
  have hs2q : (0:ℚ) < (s.2:ℚ) := by exact_mod_cast hs2
  have hscale := rnd64_bounds 1024 L (by norm_num) hL
    (by push_cast; exact scale_lb L hL hLB) (by push_cast; exact scale_ub L hL)
  push_cast at hscale
  rw [two_zpow_neg53] at hscale
  have hq1pos : (0:ℚ) < 1024 / (L:ℚ) := by positivity
  have hsvpos : 0 < qval s := by nlinarith [hscale.1]
  have hs1 : 0 < s.1 := by
    rcases Nat.eq_zero_or_pos s.1 with h0 | h
    · exfalso
      have hz : qval s = 0 := by unfold qval; rw [h0]; norm_num
      rw [hz] at hsvpos
      exact lt_irrefl 0 hsvpos
    · exact h
  set p := rnd64 (dd * s.1) s.2 with hp
  have hddq : (1:ℚ) ≤ (dd:ℚ) := by exact_mod_cast hdd
  have hddL : (dd:ℚ) ≤ (L:ℚ) := by exact_mod_cast hdL
  have hq2v : ((dd * s.1 : Nat):ℚ) / (s.2:ℚ) = (dd:ℚ) * qval s := by
    unfold qval
    push_cast
    ring
  have hLscale : (L:ℚ) * (1024 / (L:ℚ)) = 1024 := by field_simp
  have hq2_ub : (dd:ℚ) * qval s ≤ 1024 * (1 + 1/9007199254740992) := by
    have h1 : (dd:ℚ) * qval s ≤ (L:ℚ) * qval s :=
      mul_le_mul_of_nonneg_right hddL hsvpos.le
    have h2 : (L:ℚ) * qval s ≤ (L:ℚ) * (1024 / (L:ℚ) * (1 + 1/9007199254740992)) :=
      mul_le_mul_of_nonneg_left hscale.2 hLq.le
    rw [← mul_assoc, hLscale] at h2
    linarith
  have hq1lb : (1024:ℚ) / 1125899906842624 ≤ 1024 / (L:ℚ) := by
    have hLB2 : L ≤ 1125899906842624 := by
      have h : (2:Nat) ^ 50 = 1125899906842624 := by norm_num
      omega
    have hLBq : (L:ℚ) ≤ 1125899906842624 := by exact_mod_cast hLB2
    rw [div_le_div_iff₀ (by norm_num) hLq]
    linarith
  have hq2_lb : (1024:ℚ) / 1125899906842624 * (1 - 1/9007199254740992)
      ≤ (dd:ℚ) * qval s := by
    have h1 : qval s ≤ (dd:ℚ) * qval s := le_mul_of_one_le_left hsvpos.le hddq
    have h2 : (1024:ℚ) / 1125899906842624 * (1 - 1/9007199254740992)
        ≤ 1024 / (L:ℚ) * (1 - 1/9007199254740992) :=
      mul_le_mul_of_nonneg_right hq1lb (by norm_num)
    linarith [hscale.1]
  have hpb := rnd64_bounds (dd * s.1) s.2 (Nat.mul_pos hdd hs1) hs2
    (by rw [hq2v]
        calc (2:ℚ) ^ (-(4400:Int)) ≤ (2:ℚ) ^ (-(41:Int)) :=
              zpow_le_zpow_right₀ (by norm_num) (by norm_num)
          _ = 1/2199023255552 := two_zpow_neg41
          _ ≤ (1024:ℚ) / 1125899906842624 * (1 - 1/9007199254740992) := by norm_num
          _ ≤ (dd:ℚ) * qval s := hq2_lb)
    (by rw [hq2v]
        calc (dd:ℚ) * qval s ≤ 1024 * (1 + 1/9007199254740992) := hq2_ub
          _ < 2048 := by norm_num
          _ = (2:ℚ) ^ ((11:Int)) := two_zpow_eleven.symm
          _ < (2:ℚ) ^ ((4400:Int) + 1) := zpow_lt_zpow_right₀ (by norm_num) (by norm_num))
  rw [hq2v, two_zpow_neg53] at hpb
  have hfinal : qval p < 1025 := by nlinarith [hpb.2, hq2_ub]
  have hp2 : 0 < p.2 := rnd64_den_pos _ _
  have hp2q : (0:ℚ) < (p.2:ℚ) := by exact_mod_cast hp2
  have hlt : p.1 < 1025 * p.2 := by
    have hq : (p.1:ℚ) < 1025 * (p.2:ℚ) := by
      have h2 := hfinal
      unfold qval at h2
      rw [div_lt_iff₀ hp2q] at h2
      linarith
    exact_mod_cast hq
  have hdiv := (Nat.div_lt_iff_lt_mul hp2).mpr hlt
  omega

/-- The longer side itself resizes, through both binary64 roundings, to at
least 1023 pixels. -/
theorem dim_ge (L : Nat) (hL : 0 < L) (hLB : L ≤ 2 ^ 50) :
    1023 ≤ (rnd64 (L * (rnd64 1024 L).1) (rnd64 1024 L).2).1 /
      (rnd64 (L * (rnd64 1024 L).1) (rnd64 1024 L).2).2 := by
  have hLq : (0:ℚ) < (L:ℚ) := by exact_mod_cast hL
  set s := rnd64 1024 L with hs
  have hs2 : 0 < s.2 := rnd64_den_pos 1024 L
  have hs2q : (0:ℚ) < (s.2:ℚ) := by exact_mod_cast hs2
  have hscale := rnd64_bounds 1024 L (by norm_num) hL
    (by push_cast; exact scale_lb L hL hLB) (by push_cast; exact scale_ub L hL)
  push_cast at hscale
  rw [two_zpow_neg53] at hscale
  have hq1pos : (0:ℚ) < 1024 / (L:ℚ) := by positivity
  have hsvpos : 0 < qval s := by nlinarith [hscale.1]
  have hs1 : 0 < s.1 := by
    rcases Nat.eq_zero_or_pos s.1 with h0 | h
    · exfalso
      have hz : qval s = 0 := by unfold qval; rw [h0]; norm_num
      rw [hz] at hsvpos
      exact lt_irrefl 0 hsvpos
    · exact h
  set p := rnd64 (L * s.1) s.2 with hp
  have hq2v : ((L * s.1 : Nat):ℚ) / (s.2:ℚ) = (L:ℚ) * qval s := by
    unfold qval
    push_cast
    ring
  have hLscale : (L:ℚ) * (1024 / (L:ℚ)) = 1024 := by field_simp
  have hq2_lb : (1024:ℚ) * (1 - 1/9007199254740992) ≤ (L:ℚ) * qval s := by
    have h2 : (L:ℚ) * (1024 / (L:ℚ) * (1 - 1/9007199254740992)) ≤ (L:ℚ) * qval s :=
      mul_le_mul_of_nonneg_left hscale.1 hLq.le
    rw [← mul_assoc, hLscale] at h2
    linarith
  have hq2_ub : (L:ℚ) * qval s ≤ 1024 * (1 + 1/9007199254740992) := by
    have h2 : (L:ℚ) * qval s ≤ (L:ℚ) * (1024 / (L:ℚ) * (1 + 1/9007199254740992)) :=
      mul_le_mul_of_nonneg_left hscale.2 hLq.le
    rw [← mul_assoc, hLscale] at h2
    linarith
  have hpb := rnd64_bounds (L * s.1) s.2 (Nat.mul_pos hL hs1) hs2
    (by rw [hq2v]
        calc (2:ℚ) ^ (-(4400:Int)) ≤ (2:ℚ) ^ (-(41:Int)) :=
              zpow_le_zpow_right₀ (by norm_num) (by norm_num)
          _ = 1/2199023255552 := two_zpow_neg41
          _ ≤ (1024:ℚ) * (1 - 1/9007199254740992) := by norm_num
          _ ≤ (L:ℚ) * qval s := hq2_lb)
    (by rw [hq2v]
        calc (L:ℚ) * qval s ≤ 1024 * (1 + 1/9007199254740992) := hq2_ub
          _ < 2048 := by norm_num
          _ = (2:ℚ) ^ ((11:Int)) := two_zpow_eleven.symm
          _ < (2:ℚ) ^ ((4400:Int) + 1) := zpow_lt_zpow_right₀ (by norm_num) (by norm_num))
  rw [hq2v, two_zpow_neg53] at hpb
  have hfinal : (1023:ℚ) < qval p := by nlinarith [hpb.1, hq2_lb, hq2_ub]
  have hp2 : 0 < p.2 := rnd64_den_pos _ _
  have hp2q : (0:ℚ) < (p.2:ℚ) := by exact_mod_cast hp2
  have hge : 1023 * p.2 ≤ p.1 := by
    have hq : 1023 * (p.2:ℚ) ≤ (p.1:ℚ) := by
      have h2 := hfinal
      unfold qval at h2
      rw [lt_div_iff₀ hp2q] at h2
      linarith
    exact_mod_cast hq
  exact (Nat.le_div_iff_mul_le hp2).mpr (by omega : 1023 * p.2 ≤ p.1)


/-- Invariant of the quality loop: started at a quality of the form
10 k + 5 that is at least 25 with sufficient fuel, the loop returns the
encoder output at its final quality; it stops either within budget or at
quality 25 (the first quality at or below 30 in the decrement sequence),
and the final quality keeps the shape 10 k + 5, bounded by the start. -/
theorem qualityLoop_spec (enc : Nat → Nat) (budget : Nat) :
    ∀ (f q : Nat), 25 ≤ q → q % 10 = 5 → q ≤ 10 * f + 25 →
      ((qualityLoop enc budget f q).1 ≤ budget ∨ (qualityLoop enc budget f q).2 = 25) ∧
      (qualityLoop enc budget f q).1 = enc (qualityLoop enc budget f q).2 ∧
      (qualityLoop enc budget f q).2 ≤ q ∧ (qualityLoop enc budget f q).2 % 10 = 5 ∧
      25 ≤ (qualityLoop enc budget f q).2 := by
  intro f
  induction f with
  | zero =>
    intro q h25 hmod hle
    have hq : q = 25 := by omega
    subst hq
    simp [qualityLoop]
  | succ f ih =>
    intro q h25 hmod hle
    by_cases hc : enc q ≤ budget ∨ q ≤ 30
    · have heq : qualityLoop enc budget (f + 1) q = (enc q, q) := by
        rw [qualityLoop, if_pos hc]
      rw [heq]
      rcases hc with hb | hq30
      · exact ⟨Or.inl hb, rfl, le_refl q, hmod, h25⟩
      · have hq : q = 25 := by omega
        exact ⟨Or.inr hq, rfl, le_refl q, hmod, h25⟩
    · have heq : qualityLoop enc budget (f + 1) q = qualityLoop enc budget f (q - 10) := by
        rw [qualityLoop, if_neg hc]
      rw [heq]
      have h30 : ¬ q ≤ 30 := fun hx => hc (Or.inr hx)
      have hrec := ih (q - 10) (by omega) (by omega) (by omega)
      exact ⟨hrec.1, hrec.2.1, le_trans hrec.2.2.1 (by omega), hrec.2.2.2⟩

/-- C1 (amended): for every encoder and size budget the recompression loop
of `image_to_base64` terminates (the model is a total function whose fuel,
started at the initial quality, never runs out), and when it returns, the
final encoded size is at or below the budget OR the JPEG quality equals 25:
quality starts at 95 and is decremented by 10 per attempt, so the qualities
tried are 95, 85, ..., 35, 25, and the first value satisfying the
acceptance test `quality <= 30` is 25, not 30.  The final size is the
encoder's output at the final quality. -/
theorem image_loop_terminates_budget_or_floor (enc : Nat → Nat) (budget : Nat) :
    ((image_to_base64_size enc budget).1 ≤ budget ∨
      (image_to_base64_size enc budget).2 = 25) ∧
    (image_to_base64_size enc budget).1 = enc (image_to_base64_size enc budget).2 ∧
    ∃ k, k ≤ 7 ∧ (image_to_base64_size enc budget).2 = 95 - 10 * k := by
  have h := qualityLoop_spec enc budget 95 95 (by omega) (by omega) (by omega)
  obtain ⟨h1, h2, h3, h4, h5⟩ := h
  unfold image_to_base64_size
  exact ⟨h1, h2, (95 - (qualityLoop enc budget 95 95).2) / 10, by omega, by omega⟩

/-- C1 counterexample: with an encoder whose output always exceeds the
budget, the loop returns size 11 against budget 10 at quality 25, so the
claimed invariant "final size at or below budget or quality equals 30" is
false: the quality floor the code reaches is 25. -/
theorem size_budget_quality30_claim_false :
    ¬ ((image_to_base64_size (fun _ => 11) 10).1 ≤ 10 ∨
       (image_to_base64_size (fun _ => 11) 10).2 = 30) := by decide

/-- C2: the free-form repair sequence is not semantically neutral on
already-well-formed object text.  `{"a":"1"}` parses directly to the
mapping with the single entry `a ↦ "1"`, but the repair sequence rewrites
it to `{"\x01":"\x01"}}` — the non-raw Python replacement strings of lines
159-160 substitute the control character U+0001 for key and value content,
and line 164 appends a second closing brace — and that text no longer
parses at all. -/
theorem repair_not_semantically_neutral :
    json_loads ("\x7b\"a\":\"1\"\x7d".data) = some (.obj [("a", .str "1")]) ∧
    cleanJson ("\x7b\"a\":\"1\"\x7d".data) = "\x7b\"\x01\":\"\x01\"\x7d\x7d".data ∧
    json_loads (cleanJson ("\x7b\"a\":\"1\"\x7d".data)) = none :=
  ⟨rfl, rfl, rfl⟩

/-- C3: on the reply `{"a":"1",}` the free-form interpretation does not
recover the mapping `{"a":"1"}`: the direct parse fails on the trailing
comma, the repair sequence produces `{"\x01":"\x01"}}` (which fails to
parse: control character in a string, and extra data after the object), so
`perform_ocr` raises the re-raised decode error instead of returning a
mapping. -/
theorem trailing_comma_repair_fails :
    perform_ocr ("\x7b\"a\":\"1\",\x7d".data) = .error .unrecoverableParse ∧
    cleanJson ("\x7b\"a\":\"1\",\x7d".data) = "\x7b\"\x01\":\"\x01\"\x7d\x7d".data :=
  ⟨rfl, rfl⟩

/-- C4 counterexample: the resize computed in the source's double
arithmetic does not realize exact integer scaling: a 49x49 source yields
1023x1023 although exact truncation of 49 * 1024 / 49 gives 1024 (the
binary64 value of 1024/49 falls just below the exact quotient, and the
product falls below 1024). -/
theorem resize_exact_truncation_claim_false :
    resize_dims 49 49 = (1023, 1023) ∧
    49 * 1024 / max 49 49 = 1024 ∧
    ¬ ((resize_dims 49 49).1 = 49 * 1024 / max 49 49) :=
  ⟨by decide, by decide, by decide⟩

/-- C4 (amended): for every image with positive dimensions (at most 2^50,
far beyond any real image and within the range where the model is exact
binary64), both resized dimensions are at most 1024, each equals the
original dimension times the correctly rounded binary64 value of
1024 / longer-side, with the product again rounded to binary64 and then
truncated toward zero — which can fall one pixel short of exact integer
scaling — and in particular a 3024x4032 source resizes to 768x1024. -/
theorem resize_longer_le_1024 (w h : Nat) (hw : 0 < w) (hh : 0 < h)
    (hwB : w ≤ 2 ^ 50) (hhB : h ≤ 2 ^ 50) :
    (resize_dims w h).1 ≤ 1024 ∧ (resize_dims w h).2 ≤ 1024 ∧
    (resize_dims w h).1 =
      (rnd64 (w * (rnd64 1024 (max w h)).1) (rnd64 1024 (max w h)).2).1 /
        (rnd64 (w * (rnd64 1024 (max w h)).1) (rnd64 1024 (max w h)).2).2 ∧
    (resize_dims w h).2 =
      (rnd64 (h * (rnd64 1024 (max w h)).1) (rnd64 1024 (max w h)).2).1 /
        (rnd64 (h * (rnd64 1024 (max w h)).1) (rnd64 1024 (max w h)).2).2 ∧
    resize_dims 3024 4032 = (768, 1024) := by
  have hmaxB : max w h ≤ 2 ^ 50 := max_le hwB hhB
  refine ⟨?_, ?_, rfl, rfl, by decide⟩
  · exact dim_le w (max w h) hw (le_max_left w h) hmaxB
  · exact dim_le h (max w h) hh (le_max_right w h) hmaxB

/-- C4 witness: the theorem applied to the 3024x4032 source of the spec's
end-to-end scenario. -/
theorem resize_longer_le_1024_witness :
    0 < 3024 ∧ 0 < 4032 ∧ 3024 ≤ 2 ^ 50 ∧ 4032 ≤ 2 ^ 50 ∧
    (resize_dims 3024 4032).1 ≤ 1024 ∧ (resize_dims 3024 4032).2 ≤ 1024 :=
  ⟨by norm_num, by norm_num, by norm_num, by norm_num,
    (resize_longer_le_1024 3024 4032 (by norm_num) (by norm_num) (by norm_num)
      (by norm_num)).1,
    (resize_longer_le_1024 3024 4032 (by norm_num) (by norm_num) (by norm_num)
      (by norm_num)).2.1⟩

/-- C5: schema-constrained validation is all-or-nothing.  For every reply
text, either validation returns a record whose four string fields all come
from the parsed object (`Name`, `Model`, `Buy_Date`, `Serial_Number` each
present with string shape), or it returns the validation error — so a
missing field, a wrongly-shaped field, or unparseable text can never yield
a partial record.  In particular a reply missing `Serial_Number` fails. -/
theorem schema_all_or_nothing :
    (∀ content : List Char,
      (∃ l ms, perform_structured_ocr content = some l ∧
        json_loads (pyStrip content) = some (.obj ms) ∧
        getStrField ms "Name" = some l.Name ∧
        getStrField ms "Model" = some l.Model ∧
        getStrField ms "Buy_Date" = some l.Buy_Date ∧
        getStrField ms "Serial_Number" = some l.Serial_Number) ∨
      perform_structured_ocr content = none) ∧
    perform_structured_ocr
      ("\x7b\"Name\":\"x\",\"Model\":\"y\",\"Buy_Date\":\"z\"\x7d".data) = none := by
  constructor
  · intro content
    cases hr : perform_structured_ocr content with
    | none => exact Or.inr rfl
    | some l =>
      unfold perform_structured_ocr label_model_validate_json at hr
      split at hr
      · rename_i ms heqo
        split at hr
        · rename_i n mo b s h1 h2 h3 h4
          injection hr with hl
          subst hl
          exact Or.inl ⟨⟨n, mo, b, s⟩, ms, rfl, heqo, h1, h2, h3, h4⟩
        · exact absurd hr (by simp)
      · exact absurd hr (by simp)
  · rfl

/-- C6: on the reply `{"a":"1","a":"2"}` the free-form interpretation
returns exactly the one-entry mapping `a ↦ "2"`, and in general the dict
construction used by the parser resolves every duplicate key
last-write-wins: looking up any key in the built dict yields the value of
the last syntactic member carrying that key. -/
theorem duplicate_keys_last_write_wins :
    perform_ocr ("\x7b\"a\":\"1\",\"a\":\"2\"\x7d".data) = .ok (.obj [("a", .str "2")]) ∧
    ∀ (ps : List (String × JVal)) (k : String), lookupStr k (buildDict ps) = lastAssoc ps k :=
  ⟨rfl, fun ps k => lookupStr_buildDict ps k⟩

/-- C7: on the reply `{"a":"1"} Note: partially obscured.` the extraction
span runs from the first left brace to the last right brace, which cuts off
the trailing prose, and the direct parse succeeds with the one-entry
mapping `a ↦ "1"`. -/
theorem trailing_prose_direct_parse :
    perform_ocr ("\x7b\"a\":\"1\"\x7d Note: partially obscured.".data) =
      .ok (.obj [("a", .str "1")]) := rfl

/-- C8: a reply with no left brace followed somewhere later by a right
brace makes the free-form interpretation fail with the no-structure error
rather than return any mapping. -/
theorem no_structure_error_when_no_brace_pair (cs : List Char)
    (h : ¬ List.Sublist [lbrace, rbrace] cs) :
    perform_ocr cs = .error .noStructureFound := by
  unfold perform_ocr
  cases hx : extractSpan (pyStrip cs) with
  | none => rfl
  | some s =>
    exact absurd ((extractSpan_sublist (pyStrip cs) s hx).trans (pyStrip_sublist cs)) h

/-- C8 witness: a braceless prose reply fails with the no-structure
error. -/
theorem no_structure_error_when_no_brace_pair_witness :
    ¬ List.Sublist [lbrace, rbrace] ("The label was unreadable.".data) ∧
    perform_ocr ("The label was unreadable.".data) = .error .noStructureFound :=
  ⟨by decide, no_structure_error_when_no_brace_pair _ (by decide)⟩

/-- C9 counterexample: the longer dimension is not always rescaled to
exactly 1024: a 49x49 source resizes to 1023x1023, because the binary64
rounding of 1024/49 times 49 falls just below 1024 and `int` truncates. -/
theorem resize_longer_1024_claim_false :
    max (resize_dims 49 49).1 (resize_dims 49 49).2 = 1023 ∧
    ¬ (max (resize_dims 49 49).1 (resize_dims 49 49).2 = 1024) :=
  ⟨by decide, by decide⟩

/-- C9 (amended): for every image with positive dimensions at most 2^50,
the longer resized dimension is 1023 or 1024 — the double rounding can lose
a single pixel from the reference length — so an image whose longer side is
at most 1022 is strictly enlarged, never passed through at its original
size. -/
theorem resize_longer_within_one_of_1024 (w h : Nat) (hw : 0 < w) (hh : 0 < h)
    (hwB : w ≤ 2 ^ 50) (hhB : h ≤ 2 ^ 50) :
    (max (resize_dims w h).1 (resize_dims w h).2 = 1023 ∨
      max (resize_dims w h).1 (resize_dims w h).2 = 1024) ∧
    (max w h ≤ 1022 → max w h < max (resize_dims w h).1 (resize_dims w h).2) := by
  have hmaxB : max w h ≤ 2 ^ 50 := max_le hwB hhB
  have h1 : (resize_dims w h).1 ≤ 1024 := dim_le w (max w h) hw (le_max_left w h) hmaxB
  have h2 : (resize_dims w h).2 ≤ 1024 := dim_le h (max w h) hh (le_max_right w h) hmaxB
  have hlong : 1023 ≤ max (resize_dims w h).1 (resize_dims w h).2 := by
    rcases le_total w h with hle | hle
    · have e2 : (resize_dims w h).2 =
          (rnd64 (h * (rnd64 1024 (max w h)).1) (rnd64 1024 (max w h)).2).1 /
            (rnd64 (h * (rnd64 1024 (max w h)).1) (rnd64 1024 (max w h)).2).2 := rfl
      have hge : 1023 ≤ (resize_dims w h).2 := by
        rw [e2, max_eq_right hle]
        exact dim_ge h hh hhB
      exact le_max_of_le_right hge
    · have e1 : (resize_dims w h).1 =
          (rnd64 (w * (rnd64 1024 (max w h)).1) (rnd64 1024 (max w h)).2).1 /
            (rnd64 (w * (rnd64 1024 (max w h)).1) (rnd64 1024 (max w h)).2).2 := rfl
      have hge : 1023 ≤ (resize_dims w h).1 := by
        rw [e1, max_eq_left hle]
        exact dim_ge w hw hwB
      exact le_max_of_le_left hge
  constructor
  · omega
  · intro hsm
    omega

/-- C9 witness: a 100x50 source, whose longer side 100 is below 1024, is
enlarged so that its longer resized dimension is 1024. -/
theorem resize_longer_within_one_of_1024_witness :
    0 < 100 ∧ 0 < 50 ∧ 100 ≤ 2 ^ 50 ∧ 50 ≤ 2 ^ 50 ∧
    ((max (resize_dims 100 50).1 (resize_dims 100 50).2 = 1023 ∨
      max (resize_dims 100 50).1 (resize_dims 100 50).2 = 1024) ∧
     (max 100 50 ≤ 1022 → max 100 50 < max (resize_dims 100 50).1 (resize_dims 100 50).2)) :=
  ⟨by norm_num, by norm_num, by norm_num, by norm_num,
    resize_longer_within_one_of_1024 100 50 (by norm_num) (by norm_num) (by norm_num)
      (by norm_num)⟩

/-- C10: when the source path does not exist and its extension is outside
the recognized set, validation fails with the file-not-found error, never
the invalid-format error: the existence check precedes the extension
check. -/
theorem exists_check_precedes_format_check (fsExists : List Char → Bool) (p : List Char)
    (h1 : fsExists p = false)
    (h2 : validExtensions.contains (String.mk (pathSuffixLower p)) = false) :
    validate_image_path fsExists p = .error .fileNotFound ∧
    validate_image_path fsExists p ≠ .error .invalidFormat := by
  unfold validate_image_path
  rw [h1]
  simp

/-- C10 witness: a nonexistent path with the unrecognized extension `.txt`
fails with the file-not-found error. -/
theorem exists_check_precedes_format_check_witness :
    (fun _ : List Char => false) ("missing.txt".data) = false ∧
    validExtensions.contains (String.mk (pathSuffixLower ("missing.txt".data))) = false ∧
    validate_image_path (fun _ => false) ("missing.txt".data) = .error .fileNotFound :=
  ⟨rfl, by decide,
    (exists_check_precedes_format_check (fun _ => false) ("missing.txt".data) rfl (by decide)).1⟩
